import Mathlib

/-!
Shallow embedding of `src/memento.py`, a vocabulary-trainer CLI.

Python strings are modelled as Lean `String` (with `stripStr` for
`str.strip()` and `lowerStr` for `str.lower()`); the character-level
filter logic of `view_words` is modelled over `List Char` so positional
operations (`s[:-1]`) are structural.  The word store — a Python `dict`
preserving insertion order — is an association list with unique keys;
`dict[k] = v` is `storeInsert` (overwrite in place, else append).  User
input is an explicit script (a list, or a function from prompt index to
answer).  Persisted writes are modelled by threading and returning the
document that would be saved.
-/

namespace Memento

/-- Python `s.lower()`: lower-case every character. -/
def lowerStr (s : String) : String :=
  ⟨s.data.map Char.toLower⟩

/-- Python `s.strip()`: drop leading and trailing whitespace. -/
def stripStr (s : String) : String :=
  ⟨(((s.data.dropWhile Char.isWhitespace).reverse.dropWhile
      Char.isWhitespace).reverse)⟩

/-- Python dict assignment `words[word] = definition`: overwrite in place
when the key exists, otherwise append at the end (insertion order kept). -/
def storeInsert (store : List (String × String)) (k v : String) :
    List (String × String) :=
  if store.any (fun p => p.1 = k) then
    store.map (fun p => if p.1 = k then (k, v) else p)
  else
    store ++ [(k, v)]

/-- Python `words.get(word)` / `word in words` lookup. -/
def lookup (store : List (String × String)) (k : String) : Option String :=
  (store.find? (fun p => p.1 = k)).map Prod.snd

/-- Keys of the store, in insertion order. -/
def keys (store : List (String × String)) : List String :=
  store.map Prod.fst

/-! ## Statistics ledger (`load_stats` / `update_stats`) -/

/-- One element of `stats["quiz_results"]`.  The Python float `percentage`
is modelled exactly over `ℚ`. -/
structure QuizResult where
  date : String
  score : Nat
  total : Nat
  percentage : ℚ
  words_attempted : List String
deriving Repr, DecidableEq

/-- The stats document (`data/stats.json`). -/
structure Stats where
  total_quizzes : Nat
  words_learned : Nat
  quiz_results : List QuizResult
  last_quiz_date : Option String
deriving Repr, DecidableEq

/-- `load_stats` fallback when no document exists: all-zero initial stats. -/
def defaultStats : Stats :=
  { total_quizzes := 0
    words_learned := 0
    quiz_results := []
    last_quiz_date := none }

/-- The quiz-result record built inside `update_stats`:
`percentage = (score / total) * 100 if total > 0 else 0`. -/
def mkQuizResult (date : String) (correct_count total_words : Nat)
    (words_attempted : List String) : QuizResult :=
  { date := date
    score := correct_count
    total := total_words
    percentage :=
      if total_words > 0 then
        ((correct_count : ℚ) / (total_words : ℚ)) * 100
      else 0
    words_attempted := words_attempted }

/-- `update_stats(correct_count, total_words, words_attempted)`: bump the
quiz counter, raise the `words_learned` high-water mark, append one result,
set the last-quiz date, save. -/
def update_stats (date : String) (correct_count total_words : Nat)
    (words_attempted : List String) (stats : Stats) : Stats :=
  { total_quizzes := stats.total_quizzes + 1
    words_learned := max stats.words_learned correct_count
    quiz_results :=
      stats.quiz_results ++ [mkQuizResult date correct_count total_words words_attempted]
    last_quiz_date := some date }

/-- One `update_stats` call site's arguments, for folding sequences of calls. -/
structure RecordCall where
  date : String
  correct_count : Nat
  total_words : Nat
  words_attempted : List String

/-- Apply a sequence of `update_stats` calls in order. -/
def applyCalls (calls : List RecordCall) (stats : Stats) : Stats :=
  calls.foldl
    (fun s c => update_stats c.date c.correct_count c.total_words c.words_attempted s)
    stats

/-! ## Mistake highlighting (`highlight_mistakes`) -/

/-- The annotation put on one character of the user's answer: green
(correct, original casing kept) or red-bold (incorrect, upper-cased). -/
inductive Mark where
  | correct
  | incorrect
deriving Repr, DecidableEq, Inhabited

/-- `highlight_mistakes(user_answer, correct_word)`: walk the user's answer
position by position; inside the correct word's bounds compare
case-insensitively, beyond them always mark incorrect upper-cased. -/
def highlight_mistakes : List Char → List Char → List (Char × Mark)
  | [], _ => []
  | c :: cs, [] => (c.toUpper, Mark.incorrect) :: highlight_mistakes cs []
  | c :: cs, w :: ws =>
      (if c.toLower = w.toLower then (c, Mark.correct)
       else (c.toUpper, Mark.incorrect)) :: highlight_mistakes cs ws

/-! ## The quiz session (`quiz`) -/

/-- `answer.strip().lower()`, the normalisation applied to every quiz answer. -/
def normalize (s : String) : String :=
  lowerStr (stripStr s)

/-- The two sentinel answers that end a quiz early:
`answer.strip().lower() in ['exit', 'menu']`. -/
def isSentinel (s : String) : Bool :=
  normalize s = "exit" || normalize s = "menu"

/-- Python `words_attempted.add(word)` on a set, modelled as a
duplicate-free list. -/
def setAdd (attempted : List String) (w : String) : List String :=
  if w ∈ attempted then attempted else attempted ++ [w]

/-- The observable outcome of one `quiz` session (top-level or retry):
the final accumulators, whether `update_stats` was called and with which
`(correct_count, total)` arguments, whether the session ended early, and
whether the retry prompt was presented. -/
structure QuizOutcome where
  attempted : List String
  correct_count : Nat
  mistakes : List (String × String)
  recorded : Option (Nat × Nat)
  earlyExited : Bool
  retryOffered : Bool
deriving Repr, DecidableEq

/-- The code after the `for` loop of `quiz`: show stats only when something
was attempted; call `update_stats` only when not in retry mode; offer the
retry prompt when there are incorrect words. -/
def finishQuiz (retry_mode : Bool) (attempted : List String)
    (correct_count : Nat) (mistakes : List (String × String)) : QuizOutcome :=
  if attempted.isEmpty then
    { attempted := attempted
      correct_count := correct_count
      mistakes := mistakes
      recorded := none
      earlyExited := false
      retryOffered := false }
  else
    { attempted := attempted
      correct_count := correct_count
      mistakes := mistakes
      recorded :=
        if retry_mode then none else some (correct_count, attempted.length)
      earlyExited := false
      retryOffered := !mistakes.isEmpty }

/-- The `for index, (word, definition) in enumerate(word_definitions)` loop
of `quiz`, with `input i` the answer typed at the `i`-th prompt.  A sentinel
answer returns at once (recording only when something was attempted, with
no retry offer); otherwise the word joins `attempted`, a case-insensitive
match bumps `correct_count`, and a miss appends to `incorrect_words`. -/
def quizLoop (retry_mode : Bool) (input : Nat → String) :
    List (String × String) → Nat → List String → Nat →
    List (String × String) → QuizOutcome
  | [], _, attempted, correct_count, mistakes =>
      finishQuiz retry_mode attempted correct_count mistakes
  | (word, definition) :: rest, i, attempted, correct_count, mistakes =>
      let answer := input i
      if isSentinel answer then
        { attempted := attempted
          correct_count := correct_count
          mistakes := mistakes
          recorded :=
            if attempted.isEmpty then none
            else some (correct_count, attempted.length)
          earlyExited := true
          retryOffered := false }
      else
        let attempted' := setAdd attempted word
        if normalize answer = lowerStr word then
          quizLoop retry_mode input rest (i + 1) attempted' (correct_count + 1) mistakes
        else
          quizLoop retry_mode input rest (i + 1) attempted' correct_count
            (mistakes ++ [(word, definition)])

/-- A whole session starts with empty accumulators at prompt 0. -/
def runQuiz (retry_mode : Bool) (input : Nat → String)
    (pool : List (String × String)) : QuizOutcome :=
  quizLoop retry_mode input pool 0 [] 0 []

/-- Pool construction at Sizing for a top-level quiz:
`quiz_size = min(quiz_size, len(word_definitions))`, then
`random.shuffle(word_definitions)` (here: `shuffled`, an arbitrary
permutation of `list(words.items())`), then `word_definitions[:quiz_size]`. -/
def build_pool (quiz_size : Nat) (shuffled : List (String × String)) :
    List (String × String) :=
  shuffled.take (min quiz_size shuffled.length)

/-! ## Incremental word filter (`view_words`) -/

/-- `s.lower()` character by character, over the char-list view of a word. -/
def lcList (s : List Char) : List Char :=
  s.map Char.toLower

/-- `any(word.lower().startswith(current_filter.lower()) for word in words)`:
does some store key match the filter as a case-insensitive prefix? -/
def hasMatch (words : List (List Char)) (filter : List Char) : Bool :=
  words.any (fun w => (lcList filter).isPrefixOf (lcList w))

/-- One iteration of the `view_words` loop on input `rawInp`
(`input(...).lower()` in the source): empty input returns to the menu
(`none`); `'clear'` resets the filter, anything else is appended; then, if
no key matches the new filter, only the last character is removed
(`current_filter = current_filter[:-1]`). -/
def viewStep (words : List (List Char)) (filter : List Char)
    (rawInp : List Char) : Option (List Char) :=
  let inp := lcList rawInp
  if inp = [] then none
  else
    let f1 := if inp = "clear".toList then [] else filter ++ inp
    if hasMatch words f1 then some f1 else some f1.dropLast

/-! ## Adding words (`add_word`) -/

/-- The `add_word` input loop over the script of typed lines: a word whose
lowercase form is `'main'` exits; otherwise the next line is its definition
and `words[word] = definition` runs; then a continue answer of `'main'`
(case-insensitive) exits.  An exhausted script stops the loop. -/
def add_word_loop (inputs : List String) (words : List (String × String)) :
    List (String × String) :=
  match inputs with
  | [] => words
  | word :: rest =>
      if lowerStr word = "main" then words
      else
        match rest with
        | [] => words
        | definition :: rest' =>
            let words' := storeInsert words word definition
            match rest' with
            | [] => words'
            | cont :: rest'' =>
                if lowerStr cont = "main" then words'
                else add_word_loop rest'' words'

/-- `add_word(words)`: run the input loop, then `save_words(words)`
unconditionally — the Bool records that the store was persisted. -/
def add_word (inputs : List String) (words : List (String × String)) :
    List (String × String) × Bool :=
  (add_word_loop inputs words, true)

/-! ## CSV export and import -/

/-- `export_words_to_csv(words)`: the header row `["Word", "Definition"]`
followed by one `(word, definition)` row per entry, untrimmed, in store
order. -/
def export_words_to_csv (words : List (String × String)) :
    List String × List (String × String) :=
  (["Word", "Definition"], words)

/-- The per-row filter of `import_words_from_csv`: trim both fields and
keep the row only when both are non-empty afterwards. -/
def keptRow (row : String × String) : Option (String × String) :=
  let w := stripStr row.1
  let d := stripStr row.2
  if w ≠ "" ∧ d ≠ "" then some (w, d) else none

/-- The body of the import loop for one row: trim both fields, and when
both are non-empty run `words[word] = definition` and bump
`imported_count`. -/
def importStep (acc : List (String × String) × Nat) (row : String × String) :
    List (String × String) × Nat :=
  let w := stripStr row.1
  let d := stripStr row.2
  if w ≠ "" ∧ d ≠ "" then (storeInsert acc.1 w d, acc.2 + 1) else acc

/-- `words[row.Word] = row.Definition` for an already-trimmed row. -/
def insRow (acc : List (String × String)) (row : String × String) :
    List (String × String) :=
  storeInsert acc row.1 row.2

/-- `import_words_from_csv`, on rows already split into their `Word` and
`Definition` fields: abort (`none`) unless the header holds both column
names; otherwise trim each row, skip rows with an empty field, assign
`words[word] = definition` and count each merged row; the returned triple
is the saved store, `imported_count`, and
`new_words_added = len(words) - initial_word_count`. -/
def import_words (header : List String) (rows : List (String × String))
    (words : List (String × String)) :
    Option (List (String × String) × Nat × Nat) :=
  if "Word" ∈ header ∧ "Definition" ∈ header then
    let res := rows.foldl importStep (words, 0)
    some (res.1, res.2, res.1.length - words.length)
  else none

/-! ## Helper lemmas -/

theorem highlight_mistakes_length (u w : List Char) :
    (highlight_mistakes u w).length = u.length := by
  induction u generalizing w with
  | nil => cases w <;> simp [highlight_mistakes]
  | cons c cs ih => cases w <;> simp [highlight_mistakes, ih]

theorem highlight_mistakes_getD (u w : List Char) (i : Nat) (hi : i < u.length) :
    (highlight_mistakes u w).getD i ('a', Mark.correct) =
      (if i < w.length ∧ (u.getD i 'a').toLower = (w.getD i 'a').toLower
       then (u.getD i 'a', Mark.correct)
       else ((u.getD i 'a').toUpper, Mark.incorrect)) := by
  induction u generalizing w i with
  | nil => simp at hi
  | cons c cs ih =>
    cases w with
    | nil =>
      cases i with
      | zero => simp [highlight_mistakes]
      | succ j =>
        simp only [highlight_mistakes, List.getD_cons_succ]
        have hj : j < cs.length := by simpa using hi
        simpa using ih [] j hj
    | cons x ws =>
      cases i with
      | zero =>
        by_cases h : c.toLower = x.toLower <;>
          simp [highlight_mistakes, h]
      | succ j =>
        have hj : j < cs.length := by simpa using hi
        simp only [highlight_mistakes, List.getD_cons_succ]
        by_cases h : c.toLower = x.toLower <;>
          simpa [h, Nat.succ_lt_succ_iff] using ih ws j hj

theorem applyCalls_total_eq_length (calls : List RecordCall) (s : Stats)
    (h : s.total_quizzes = s.quiz_results.length) :
    (applyCalls calls s).total_quizzes =
      (applyCalls calls s).quiz_results.length := by
  induction calls generalizing s with
  | nil => simpa [applyCalls] using h
  | cons c rest ih =>
    have : (update_stats c.date c.correct_count c.total_words
        c.words_attempted s).total_quizzes =
        (update_stats c.date c.correct_count c.total_words
          c.words_attempted s).quiz_results.length := by
      simp [update_stats, h]
    simpa [applyCalls] using ih _ this

@[simp] theorem finishQuiz_attempted (r : Bool) (a : List String) (c : Nat)
    (m : List (String × String)) : (finishQuiz r a c m).attempted = a := by
  unfold finishQuiz; split <;> rfl

@[simp] theorem finishQuiz_correct_count (r : Bool) (a : List String) (c : Nat)
    (m : List (String × String)) : (finishQuiz r a c m).correct_count = c := by
  unfold finishQuiz; split <;> rfl

@[simp] theorem finishQuiz_earlyExited (r : Bool) (a : List String) (c : Nat)
    (m : List (String × String)) : (finishQuiz r a c m).earlyExited = false := by
  unfold finishQuiz; split <;> rfl

theorem finishQuiz_recorded_retry (a : List String) (c : Nat)
    (m : List (String × String)) : (finishQuiz true a c m).recorded = none := by
  unfold finishQuiz; split <;> rfl

theorem quizLoop_nil (r : Bool) (input : Nat → String) (i : Nat)
    (a : List String) (c : Nat) (m : List (String × String)) :
    quizLoop r input [] i a c m = finishQuiz r a c m := rfl

theorem quizLoop_cons_sentinel (r : Bool) (input : Nat → String)
    (word definition : String) (rest : List (String × String)) (i : Nat)
    (a : List String) (c : Nat) (m : List (String × String))
    (hs : isSentinel (input i) = true) :
    quizLoop r input ((word, definition) :: rest) i a c m =
      { attempted := a
        correct_count := c
        mistakes := m
        recorded := if a.isEmpty then none else some (c, a.length)
        earlyExited := true
        retryOffered := false } := by
  simp [quizLoop, hs]

theorem quizLoop_cons_correct (r : Bool) (input : Nat → String)
    (word definition : String) (rest : List (String × String)) (i : Nat)
    (a : List String) (c : Nat) (m : List (String × String))
    (hs : isSentinel (input i) = false)
    (hc : normalize (input i) = lowerStr word) :
    quizLoop r input ((word, definition) :: rest) i a c m =
      quizLoop r input rest (i + 1) (setAdd a word) (c + 1) m := by
  simp [quizLoop, hs, hc]

theorem quizLoop_cons_incorrect (r : Bool) (input : Nat → String)
    (word definition : String) (rest : List (String × String)) (i : Nat)
    (a : List String) (c : Nat) (m : List (String × String))
    (hs : isSentinel (input i) = false)
    (hc : ¬ normalize (input i) = lowerStr word) :
    quizLoop r input ((word, definition) :: rest) i a c m =
      quizLoop r input rest (i + 1) (setAdd a word) c
        (m ++ [(word, definition)]) := by
  simp [quizLoop, hs, hc]

/-- A completed (not early-exited) retry session never records. -/
theorem quizLoop_retry_completed_no_record (input : Nat → String) :
    ∀ (pool : List (String × String)) (i : Nat) (attempted : List String)
      (cc : Nat) (mistakes : List (String × String)),
    (quizLoop true input pool i attempted cc mistakes).earlyExited = false →
    (quizLoop true input pool i attempted cc mistakes).recorded = none := by
  intro pool
  induction pool with
  | nil =>
    intro i attempted cc mistakes _
    rw [quizLoop_nil]
    exact finishQuiz_recorded_retry attempted cc mistakes
  | cons p rest ih =>
    intro i attempted cc mistakes h
    obtain ⟨word, definition⟩ := p
    by_cases hs : isSentinel (input i)
    · rw [quizLoop_cons_sentinel _ _ _ _ _ _ _ _ _ hs] at h
      simp at h
    · have hs' : isSentinel (input i) = false := by simpa using hs
      by_cases hc : normalize (input i) = lowerStr word
      · rw [quizLoop_cons_correct _ _ _ _ _ _ _ _ _ hs' hc] at h ⊢
        exact ih _ _ _ _ h
      · rw [quizLoop_cons_incorrect _ _ _ _ _ _ _ _ _ hs' hc] at h ⊢
        exact ih _ _ _ _ h

/-- An early-exited session with a non-empty attempted set records its own
`(correct_count, attempted size)`. -/
theorem quizLoop_early_records (retry_mode : Bool) (input : Nat → String) :
    ∀ (pool : List (String × String)) (i : Nat) (attempted : List String)
      (cc : Nat) (mistakes : List (String × String)),
    (quizLoop retry_mode input pool i attempted cc mistakes).earlyExited = true →
    (quizLoop retry_mode input pool i attempted cc mistakes).attempted ≠ [] →
    (quizLoop retry_mode input pool i attempted cc mistakes).recorded =
      some ((quizLoop retry_mode input pool i attempted cc mistakes).correct_count,
        (quizLoop retry_mode input pool i attempted cc mistakes).attempted.length) := by
  intro pool
  induction pool with
  | nil =>
    intro i attempted cc mistakes h
    rw [quizLoop_nil] at h
    simp at h
  | cons p rest ih =>
    intro i attempted cc mistakes h hne
    obtain ⟨word, definition⟩ := p
    by_cases hs : isSentinel (input i)
    · rw [quizLoop_cons_sentinel _ _ _ _ _ _ _ _ _ hs] at hne ⊢
      have hemp : attempted.isEmpty = false := by
        simpa [List.isEmpty_iff] using hne
      simp [hemp]
    · have hs' : isSentinel (input i) = false := by simpa using hs
      by_cases hc : normalize (input i) = lowerStr word
      · rw [quizLoop_cons_correct _ _ _ _ _ _ _ _ _ hs' hc] at h hne ⊢
        exact ih _ _ _ _ h hne
      · rw [quizLoop_cons_incorrect _ _ _ _ _ _ _ _ _ hs' hc] at h hne ⊢
        exact ih _ _ _ _ h hne

/-- Whenever a session records, the recorded pair is exactly the session's
own final `correct_count` and attempted-set size. -/
theorem quizLoop_recorded_args (retry_mode : Bool) (input : Nat → String) :
    ∀ (pool : List (String × String)) (i : Nat) (attempted : List String)
      (cc : Nat) (mistakes : List (String × String)) (s t : Nat),
    (quizLoop retry_mode input pool i attempted cc mistakes).recorded = some (s, t) →
    s = (quizLoop retry_mode input pool i attempted cc mistakes).correct_count ∧
    t = (quizLoop retry_mode input pool i attempted cc mistakes).attempted.length := by
  intro pool
  induction pool with
  | nil =>
    intro i attempted cc mistakes s t h
    rw [quizLoop_nil] at h ⊢
    unfold finishQuiz at h ⊢
    split at h <;> (try split at h) <;> simp_all
  | cons p rest ih =>
    intro i attempted cc mistakes s t h
    obtain ⟨word, definition⟩ := p
    by_cases hs : isSentinel (input i)
    · rw [quizLoop_cons_sentinel _ _ _ _ _ _ _ _ _ hs] at h ⊢
      split at h <;> simp_all
    · have hs' : isSentinel (input i) = false := by simpa using hs
      by_cases hc : normalize (input i) = lowerStr word
      · rw [quizLoop_cons_correct _ _ _ _ _ _ _ _ _ hs' hc] at h ⊢
        exact ih _ _ _ _ _ _ h
      · rw [quizLoop_cons_incorrect _ _ _ _ _ _ _ _ _ hs' hc] at h ⊢
        exact ih _ _ _ _ _ _ h

/-- The running invariant `correct_count ≤ |attempted|`, preserved when the
remaining pool's keys are distinct and disjoint from `attempted`. -/
theorem quizLoop_cc_le_attempted (retry_mode : Bool) (input : Nat → String) :
    ∀ (pool : List (String × String)) (i : Nat) (attempted : List String)
      (cc : Nat) (mistakes : List (String × String)),
    (keys pool).Nodup → (∀ p ∈ pool, p.1 ∉ attempted) → cc ≤ attempted.length →
    (quizLoop retry_mode input pool i attempted cc mistakes).correct_count ≤
      (quizLoop retry_mode input pool i attempted cc mistakes).attempted.length := by
  intro pool
  induction pool with
  | nil =>
    intro i attempted cc mistakes _ _ hcc
    rw [quizLoop_nil]
    simpa using hcc
  | cons p rest ih =>
    intro i attempted cc mistakes hnodup hdisj hcc
    obtain ⟨word, definition⟩ := p
    have hw : word ∉ attempted := hdisj (word, definition) (List.mem_cons_self _ _)
    have hadd : setAdd attempted word = attempted ++ [word] := by
      simp [setAdd, hw]
    have hlen : (setAdd attempted word).length = attempted.length + 1 := by
      simp [hadd]
    have hrest_nodup : (keys rest).Nodup := by
      simpa [keys] using hnodup.of_cons
    have hword_rest : word ∉ keys rest := by
      have h1 := hnodup
      simp only [keys, List.map_cons, List.nodup_cons] at h1
      simpa [keys] using h1.1
    have hrest_disj : ∀ p ∈ rest, p.1 ∉ setAdd attempted word := by
      intro q hq
      rw [hadd]
      simp only [List.mem_append, List.mem_singleton]
      rintro (hqa | hqw)
      · exact hdisj q (List.mem_cons_of_mem _ hq) hqa
      · exact hword_rest (hqw ▸ List.mem_map_of_mem Prod.fst hq)
    by_cases hs : isSentinel (input i)
    · rw [quizLoop_cons_sentinel _ _ _ _ _ _ _ _ _ hs]
      simpa using hcc
    · have hs' : isSentinel (input i) = false := by simpa using hs
      by_cases hc : normalize (input i) = lowerStr word
      · rw [quizLoop_cons_correct _ _ _ _ _ _ _ _ _ hs' hc]
        exact ih _ _ _ _ hrest_nodup hrest_disj (by omega)
      · rw [quizLoop_cons_incorrect _ _ _ _ _ _ _ _ _ hs' hc]
        exact ih _ _ _ _ hrest_nodup hrest_disj (by omega)

/-- The percentage computed by `update_stats` stays in `[0, 100]` whenever
`score ≤ total`. -/
theorem mkQuizResult_percentage_bounds (date : String) (s t : Nat)
    (ws : List String) (h : s ≤ t) :
    0 ≤ (mkQuizResult date s t ws).percentage ∧
      (mkQuizResult date s t ws).percentage ≤ 100 := by
  unfold mkQuizResult
  simp only
  split
  · rename_i ht
    have ht' : (0 : ℚ) < t := by exact_mod_cast ht
    constructor
    · positivity
    · have h1 : (s : ℚ) / t ≤ 1 :=
        div_le_one_of_le₀ (by exact_mod_cast h) (le_of_lt ht')
      calc (s : ℚ) / t * 100 ≤ 1 * 100 :=
            mul_le_mul_of_nonneg_right h1 (by norm_num)
        _ = 100 := by norm_num
  · norm_num

theorem any_key_iff (s : List (String × String)) (k : String) :
    s.any (fun p => p.1 = k) = true ↔ k ∈ keys s := by
  constructor
  · intro h
    obtain ⟨p, hp, he⟩ := List.any_eq_true.mp h
    have hk : p.1 = k := by simpa using he
    exact hk ▸ List.mem_map_of_mem Prod.fst hp
  · intro h
    obtain ⟨p, hp, he⟩ := List.mem_map.mp h
    exact List.any_eq_true.mpr ⟨p, hp, by simpa using he⟩

theorem storeInsert_keys (s : List (String × String)) (k v : String) :
    keys (storeInsert s k v) = if k ∈ keys s then keys s else keys s ++ [k] := by
  unfold storeInsert
  by_cases h : s.any (fun p => p.1 = k) = true
  · rw [if_pos h, if_pos ((any_key_iff s k).mp h)]
    unfold keys
    rw [List.map_map]
    apply List.map_congr_left
    intro p _
    by_cases hp : p.1 = k <;> simp [hp]
  · rw [if_neg h, if_neg (fun hk => h ((any_key_iff s k).mpr hk))]
    simp [keys]

theorem storeInsert_of_not_mem (s : List (String × String)) (k v : String)
    (h : k ∉ keys s) : storeInsert s k v = s ++ [(k, v)] := by
  unfold storeInsert
  rw [if_neg (fun hany => h ((any_key_iff s k).mp hany))]

theorem storeInsert_keys_nodup (s : List (String × String)) (k v : String)
    (h : (keys s).Nodup) : (keys (storeInsert s k v)).Nodup := by
  rw [storeInsert_keys]
  by_cases hk : k ∈ keys s
  · rwa [if_pos hk]
  · rw [if_neg hk]
    simp [List.nodup_append, h, hk]

theorem storeInsert_keys_toFinset (s : List (String × String)) (k v : String) :
    (keys (storeInsert s k v)).toFinset = insert k (keys s).toFinset := by
  rw [storeInsert_keys]
  by_cases hk : k ∈ keys s
  · rw [if_pos hk]
    exact (Finset.insert_eq_self.mpr (List.mem_toFinset.mpr hk)).symm
  · rw [if_neg hk]
    ext a
    simp [or_comm]

theorem store_length_eq_card (s : List (String × String))
    (h : (keys s).Nodup) : s.length = (keys s).toFinset.card := by
  rw [List.toFinset_card_of_nodup h]
  simp [keys]

theorem foldl_insRow_keys_nodup :
    ∀ (rows acc : List (String × String)), (keys acc).Nodup →
    (keys (rows.foldl insRow acc)).Nodup := by
  intro rows
  induction rows with
  | nil => intro acc h; exact h
  | cons r rest ih =>
    intro acc h
    exact ih _ (storeInsert_keys_nodup _ _ _ h)

theorem foldl_insRow_keys_toFinset :
    ∀ (rows acc : List (String × String)),
    (keys (rows.foldl insRow acc)).toFinset =
      (keys acc).toFinset ∪ (rows.map Prod.fst).toFinset := by
  intro rows
  induction rows with
  | nil => intro acc; simp
  | cons r rest ih =>
    intro acc
    rw [List.foldl_cons, ih]
    show (keys (storeInsert acc r.1 r.2)).toFinset ∪ _ = _
    rw [storeInsert_keys_toFinset]
    simp [Finset.insert_union, Finset.union_insert]

theorem foldl_insRow_of_disjoint :
    ∀ (l acc : List (String × String)),
    (∀ p ∈ l, p.1 ∉ keys acc) → (keys l).Nodup →
    l.foldl insRow acc = acc ++ l := by
  intro l
  induction l with
  | nil => intro acc _ _; simp
  | cons r rest ih =>
    intro acc hd hn
    have hr : r.1 ∉ keys acc := hd r (List.mem_cons_self _ _)
    have hstep : insRow acc r = acc ++ [r] := by
      unfold insRow
      rw [storeInsert_of_not_mem _ _ _ hr]
    have hhead : r.1 ∉ keys rest := by
      simp only [keys, List.map_cons, List.nodup_cons] at hn
      simpa [keys] using hn.1
    have htail : (keys rest).Nodup := by
      simp only [keys, List.map_cons, List.nodup_cons] at hn
      simpa [keys] using hn.2
    rw [List.foldl_cons, hstep,
      ih (acc ++ [r]) ?_ htail]
    · simp
    · intro p hp
      simp only [keys, List.map_append, List.mem_append, List.map_cons,
        List.map_nil, List.mem_singleton, not_or]
      refine ⟨hd p (List.mem_cons_of_mem _ hp), ?_⟩
      intro e
      exact hhead (e ▸ List.mem_map_of_mem Prod.fst hp)

theorem import_foldl_eq :
    ∀ (rows acc : List (String × String)) (c : Nat),
    rows.foldl importStep (acc, c) =
      ((rows.filterMap keptRow).foldl insRow acc,
        c + (rows.filterMap keptRow).length) := by
  intro rows
  induction rows with
  | nil => intro acc c; simp
  | cons r rest ih =>
    intro acc c
    by_cases h : stripStr r.1 ≠ "" ∧ stripStr r.2 ≠ ""
    · have hk : keptRow r = some (stripStr r.1, stripStr r.2) := by
        simp [keptRow, h]
      have hstep : importStep (acc, c) r =
          (storeInsert acc (stripStr r.1) (stripStr r.2), c + 1) := by
        simp [importStep, h]
      rw [List.foldl_cons, hstep, ih,
        List.filterMap_cons_some hk]
      refine congrArg₂ Prod.mk rfl ?_
      simp [Nat.add_comm, Nat.add_assoc, Nat.add_left_comm]
    · have hk : keptRow r = none := by
        simp only [keptRow]
        rw [if_neg h]
      have hstep : importStep (acc, c) r = (acc, c) := by
        simp only [importStep]
        rw [if_neg h]
      rw [List.foldl_cons, hstep, List.filterMap_cons_none hk, ih]

theorem filterMap_keptRow_id :
    ∀ (l : List (String × String)),
    (∀ p ∈ l, stripStr p.1 = p.1 ∧ p.1 ≠ "" ∧ stripStr p.2 = p.2 ∧ p.2 ≠ "") →
    l.filterMap keptRow = l := by
  intro l
  induction l with
  | nil => intro _; rfl
  | cons p rest ih =>
    intro h
    obtain ⟨h1, h2, h3, h4⟩ := h p (List.mem_cons_self _ _)
    have hk : keptRow p = some p := by
      simp [keptRow, h1, h3, h2, h4]
    rw [List.filterMap_cons_some hk,
      ih (fun q hq => h q (List.mem_cons_of_mem _ hq))]

theorem import_words_spec (header : List String)
    (rows words final : List (String × String)) (ic nc : Nat)
    (hnodup : (keys words).Nodup)
    (himp : import_words header rows words = some (final, ic, nc)) :
    final = (rows.filterMap keptRow).foldl insRow words ∧
    ic = (rows.filterMap keptRow).length ∧
    nc = (((rows.filterMap keptRow).map Prod.fst).toFinset \
      (keys words).toFinset).card := by
  unfold import_words at himp
  by_cases hh : "Word" ∈ header ∧ "Definition" ∈ header
  · rw [if_pos hh] at himp
    rw [import_foldl_eq] at himp
    simp only [Option.some.injEq, Prod.mk.injEq] at himp
    obtain ⟨h1, h2, h3⟩ := himp
    refine ⟨h1.symm, by omega, ?_⟩
    have hfin_nodup :=
      foldl_insRow_keys_nodup (rows.filterMap keptRow) words hnodup
    have hfin_fs := foldl_insRow_keys_toFinset (rows.filterMap keptRow) words
    have hlen1 : ((rows.filterMap keptRow).foldl insRow words).length =
        ((keys words).toFinset ∪
          ((rows.filterMap keptRow).map Prod.fst).toFinset).card := by
      rw [store_length_eq_card _ hfin_nodup, hfin_fs]
    have hlen2 : words.length = (keys words).toFinset.card :=
      store_length_eq_card words hnodup
    have hcard : ((keys words).toFinset ∪
        ((rows.filterMap keptRow).map Prod.fst).toFinset).card =
        (keys words).toFinset.card +
          (((rows.filterMap keptRow).map Prod.fst).toFinset \
            (keys words).toFinset).card := by
      rw [← Finset.union_sdiff_self_eq_union]
      exact Finset.card_union_of_disjoint Finset.disjoint_sdiff
    omega
  · rw [if_neg hh] at himp
    exact absurd himp (by simp)

theorem find?_overwrite (k v : String) :
    ∀ (s : List (String × String)), s.any (fun p => p.1 = k) = true →
    (s.map (fun p => if p.1 = k then (k, v) else p)).find?
      (fun p => p.1 = k) = some (k, v) := by
  intro s
  induction s with
  | nil => intro h; simp at h
  | cons p rest ih =>
    intro h
    by_cases hp : p.1 = k
    · simp [hp]
    · rw [List.map_cons, if_neg hp,
        List.find?_cons_of_neg _ (by simp [hp])]
      apply ih
      simpa [hp] using h

theorem find?_append_new (k v : String) :
    ∀ (s : List (String × String)), k ∉ keys s →
    (s ++ [(k, v)]).find? (fun p => p.1 = k) = some (k, v) := by
  intro s
  induction s with
  | nil => intro _; simp
  | cons p rest ih =>
    intro h
    simp only [keys, List.map_cons, List.mem_cons, not_or] at h
    obtain ⟨hp, hrest⟩ := h
    rw [List.cons_append,
      List.find?_cons_of_neg _ (by simp; exact fun e => hp e.symm)]
    exact ih (by simpa [keys] using hrest)

theorem lookup_storeInsert_self (s : List (String × String)) (k v : String) :
    lookup (storeInsert s k v) k = some v := by
  unfold lookup storeInsert
  by_cases h : s.any (fun p => p.1 = k) = true
  · rw [if_pos h, find?_overwrite k v s h]
    rfl
  · rw [if_neg h,
      find?_append_new k v s (fun hk => h ((any_key_iff s k).mpr hk))]
    rfl

theorem add_word_single (words : List (String × String)) (w d : String)
    (h : ¬ lowerStr w = "main") :
    add_word [w, d, "main"] words = (storeInsert words w d, true) := by
  simp [add_word, add_word_loop, h,
    show lowerStr "main" = "main" from by decide]

/-! ## Claim theorems -/

/-- C1: for a store of size `N` with distinct keys and any requested size
`R ≥ 1`, the top-level pool (shuffle then prefix) has length `min R N`,
its entries carry pairwise-distinct keys all drawn from the store, and it
is literally the length-`min R N` prefix of the shuffled entry list. -/
theorem quiz_pool_sizing (R : Nat) (words shuffled : List (String × String))
    (hR : 1 ≤ R) (hnodup : (keys words).Nodup) (hperm : shuffled.Perm words) :
    (build_pool R shuffled).length = min R words.length ∧
    (keys (build_pool R shuffled)).Nodup ∧
    (∀ p ∈ build_pool R shuffled, p ∈ words) ∧
    build_pool R shuffled = shuffled.take (min R words.length) := by
  have hlen : shuffled.length = words.length := hperm.length_eq
  have hkeys : (keys shuffled).Perm (keys words) := hperm.map Prod.fst
  have hsn : (keys shuffled).Nodup := (hkeys.nodup_iff).mpr hnodup
  refine ⟨?_, ?_, ?_, ?_⟩
  · simp [build_pool, hlen, Nat.min_assoc]
  · have : keys (build_pool R shuffled) =
        (keys shuffled).take (min R shuffled.length) := by
      simp [build_pool, keys, List.map_take]
    rw [this]
    exact hsn.sublist (List.take_sublist _ _)
  · intro p hp
    have hps : p ∈ shuffled := List.mem_of_mem_take hp
    exact hperm.mem_iff.mp hps
  · simp [build_pool, hlen]

theorem quiz_pool_sizing_witness :
    (build_pool 1 [("dog", "y"), ("cat", "x")]).length = min 1 2 ∧
    (keys (build_pool 1 [("dog", "y"), ("cat", "x")])).Nodup ∧
    (∀ p ∈ build_pool 1 [("dog", "y"), ("cat", "x")],
      p ∈ [("cat", "x"), ("dog", "y")]) ∧
    build_pool 1 [("dog", "y"), ("cat", "x")] =
      [("dog", "y"), ("cat", "x")].take (min 1 2) := by
  have h := quiz_pool_sizing 1 [("cat", "x"), ("dog", "y")]
    [("dog", "y"), ("cat", "x")] (by decide) (by decide) (by decide)
  simpa using h

/-- C2: at any position of any session's pool, an answer that trims and
lower-cases to `exit` or `menu` ends the session immediately: the current
word joins neither `attempted` nor `mistakes`, the ledger record carries
`(correct_count, |attempted|)` exactly when `attempted` is non-empty at
that point, the session is early-exited, and no retry offer is made. -/
theorem quiz_early_exit_spec (retry_mode : Bool) (input : Nat → String)
    (word definition : String) (rest : List (String × String)) (i : Nat)
    (attempted : List String) (correct_count : Nat)
    (mistakes : List (String × String))
    (h : isSentinel (input i) = true) :
    quizLoop retry_mode input ((word, definition) :: rest) i attempted
        correct_count mistakes =
      { attempted := attempted
        correct_count := correct_count
        mistakes := mistakes
        recorded :=
          if attempted.isEmpty then none
          else some (correct_count, attempted.length)
        earlyExited := true
        retryOffered := false } :=
  quizLoop_cons_sentinel retry_mode input word definition rest i attempted
    correct_count mistakes h

theorem quiz_early_exit_spec_witness :
    quizLoop false (fun _ => " EXIT ")
        [("cat", "a feline"), ("dog", "a canine")] 0 ["dog"] 1 [] =
      { attempted := ["dog"]
        correct_count := 1
        mistakes := []
        recorded := some (1, 1)
        earlyExited := true
        retryOffered := false } := by
  have h := quiz_early_exit_spec false (fun _ => " EXIT ") "cat" "a feline"
    [("dog", "a canine")] 0 ["dog"] 1 [] (by decide)
  exact h.trans (by decide)

/-- C3: a retry sub-session (`retry_mode = true`) that completes never
records to the ledger, while a retry sub-session that early-exits with at
least one attempted word records its own `(correct_count, |attempted|)`. -/
theorem retry_recording_rule (input : Nat → String)
    (pool : List (String × String)) (i : Nat) (attempted : List String)
    (cc : Nat) (mistakes : List (String × String)) :
    ((quizLoop true input pool i attempted cc mistakes).earlyExited = false →
      (quizLoop true input pool i attempted cc mistakes).recorded = none) ∧
    ((quizLoop true input pool i attempted cc mistakes).earlyExited = true →
      (quizLoop true input pool i attempted cc mistakes).attempted ≠ [] →
      (quizLoop true input pool i attempted cc mistakes).recorded =
        some ((quizLoop true input pool i attempted cc mistakes).correct_count,
          (quizLoop true input pool i attempted cc mistakes).attempted.length)) :=
  ⟨quizLoop_retry_completed_no_record input pool i attempted cc mistakes,
   quizLoop_early_records true input pool i attempted cc mistakes⟩

theorem retry_recording_rule_witness :
    (quizLoop true (fun i => if i = 0 then "cat" else "exit")
      [("cat", "a feline"), ("dog", "a canine")] 0 [] 0 []).recorded =
      some (1, 1) := by
  have h := (retry_recording_rule (fun i => if i = 0 then "cat" else "exit")
    [("cat", "a feline"), ("dog", "a canine")] 0 [] 0 []).2 (by decide) (by decide)
  exact h.trans (by decide)

/-- C10: in any session whose remaining pool has pairwise-distinct keys
none of which was already attempted, `correct_count` never exceeds the
attempted-set size; hence every recorded `(score, total)` satisfies
`score ≤ total`, and the `QuizResult` percentage `update_stats` computes
from a recorded pair lies in `[0, 100]`. -/
theorem quiz_score_within_bounds (retry_mode : Bool) (input : Nat → String)
    (pool : List (String × String)) (i : Nat) (attempted : List String)
    (cc : Nat) (mistakes : List (String × String))
    (hnodup : (keys pool).Nodup) (hdisj : ∀ p ∈ pool, p.1 ∉ attempted)
    (hcc : cc ≤ attempted.length) :
    (quizLoop retry_mode input pool i attempted cc mistakes).correct_count ≤
      (quizLoop retry_mode input pool i attempted cc mistakes).attempted.length ∧
    (∀ s t,
      (quizLoop retry_mode input pool i attempted cc mistakes).recorded = some (s, t) →
      s ≤ t) ∧
    (∀ s t date ws,
      (quizLoop retry_mode input pool i attempted cc mistakes).recorded = some (s, t) →
      0 ≤ (mkQuizResult date s t ws).percentage ∧
        (mkQuizResult date s t ws).percentage ≤ 100) := by
  have hle := quizLoop_cc_le_attempted retry_mode input pool i attempted cc
    mistakes hnodup hdisj hcc
  refine ⟨hle, ?_, ?_⟩
  · intro s t h
    obtain ⟨hs, ht⟩ := quizLoop_recorded_args retry_mode input pool i attempted
      cc mistakes s t h
    omega
  · intro s t date ws h
    obtain ⟨hs, ht⟩ := quizLoop_recorded_args retry_mode input pool i attempted
      cc mistakes s t h
    exact mkQuizResult_percentage_bounds date s t ws (by omega)

theorem quiz_score_within_bounds_witness :
    (quizLoop false (fun _ => "cat") [("cat", "a feline")] 0 [] 0 []).correct_count ≤
      (quizLoop false (fun _ => "cat") [("cat", "a feline")] 0 [] 0 []).attempted.length :=
  (quiz_score_within_bounds false (fun _ => "cat") [("cat", "a feline")] 0 [] 0 []
    (by decide) (by decide) (by decide)).1

/-- C5: `highlight_mistakes` annotates exactly one character per character
of the user's answer (same length, possibly longer than the correct word);
position `i` is marked correct with the user's casing exactly when `i` is
inside the correct word and the characters match case-insensitively, and
otherwise marked incorrect upper-cased. -/
theorem highlight_mistakes_spec (u w : List Char) :
    (highlight_mistakes u w).length = u.length ∧
    ∀ i, i < u.length →
      (highlight_mistakes u w).getD i ('a', Mark.correct) =
        (if i < w.length ∧ (u.getD i 'a').toLower = (w.getD i 'a').toLower
         then (u.getD i 'a', Mark.correct)
         else ((u.getD i 'a').toUpper, Mark.incorrect)) :=
  ⟨highlight_mistakes_length u w,
   fun i hi => highlight_mistakes_getD u w i hi⟩

theorem highlight_mistakes_spec_witness :
    (highlight_mistakes ['c', 'X', 's'] ['c', 'a']).length = 3 ∧
    (highlight_mistakes ['c', 'X', 's'] ['c', 'a']).getD 1 ('a', Mark.correct)
      = ('X', Mark.incorrect) := by
  refine ⟨(highlight_mistakes_spec ['c', 'X', 's'] ['c', 'a']).1, ?_⟩
  have h := (highlight_mistakes_spec ['c', 'X', 's'] ['c', 'a']).2 1 (by decide)
  simpa using h

/-- C4 counterexample: with store `{"apple"}` and empty filter, applying
the input `"zz"` leaves the filter at `"z"` — not the pre-apply value `""`
— and `"z"` has zero case-insensitive prefix matches among the keys, so
both the exact-rollback claim and the at-least-one-match invariant fail. -/
theorem filter_rollback_counterexample :
    viewStep ["apple".toList] [] "zz".toList = some ['z'] ∧
    (['z'] : List Char) ≠ [] ∧
    hasMatch ["apple".toList] ['z'] = false := by decide

/-- C4 (amended): the no-match rollback removes exactly one trailing
character, which coincides with the pre-apply filter value only when the
applied input is a single character; hence the at-least-one-match
invariant is preserved by every single-character apply and by `clear`,
from any filter that itself has a match. -/
theorem filter_single_char_invariant (words : List (List Char))
    (filter rawInp f' : List Char)
    (hm : hasMatch words filter = true)
    (hinp : rawInp.length = 1 ∨ lcList rawInp = "clear".toList)
    (hstep : viewStep words filter rawInp = some f') :
    hasMatch words f' = true := by
  unfold viewStep at hstep
  rcases hinp with h1 | hclear
  · obtain ⟨c, hc⟩ : ∃ c, rawInp = [c] := by
      cases rawInp with
      | nil => simp at h1
      | cons a l =>
        cases l with
        | nil => exact ⟨a, rfl⟩
        | cons b l' => simp at h1
    subst hc
    simp only [lcList, List.map_cons, List.map_nil] at hstep
    rw [if_neg (by simp)] at hstep
    rw [show ("clear".toList : List Char) = ['c', 'l', 'e', 'a', 'r'] from by decide]
      at hstep
    have hne : ¬([c.toLower] = (['c', 'l', 'e', 'a', 'r'] : List Char)) := by simp
    rw [if_neg hne] at hstep
    by_cases hm1 : hasMatch words (filter ++ [c.toLower]) = true
    · rw [if_pos hm1] at hstep
      obtain rfl : filter ++ [c.toLower] = f' := by simpa using hstep
      exact hm1
    · rw [if_neg hm1] at hstep
      obtain rfl : (filter ++ [c.toLower]).dropLast = f' := by simpa using hstep
      rw [List.dropLast_concat]
      exact hm
  · rw [hclear] at hstep
    rw [if_neg (by decide)] at hstep
    rw [if_pos rfl] at hstep
    have hmnil : hasMatch words [] = true := by
      obtain ⟨w, hw, _⟩ := List.any_eq_true.mp hm
      exact List.any_eq_true.mpr ⟨w, hw, by simp [lcList]⟩
    rw [if_pos hmnil] at hstep
    obtain rfl : ([] : List Char) = f' := by simpa using hstep
    exact hmnil

theorem filter_single_char_invariant_witness :
    hasMatch ["apple".toList] ['a', 'p'] = true :=
  filter_single_char_invariant ["apple".toList] ['a'] ['p'] ['a', 'p']
    (by decide) (Or.inl (by decide)) (by decide)

/-- C6: from the default-initialised ledger, any sequence of `update_stats`
calls keeps `total_quizzes` equal to the length of `quiz_results`, and each
call appends exactly one `QuizResult` and increments `total_quizzes` by
exactly one. -/
theorem stats_history_invariant (calls : List RecordCall) :
    (applyCalls calls defaultStats).total_quizzes =
      (applyCalls calls defaultStats).quiz_results.length ∧
    ∀ (c : RecordCall) (s : Stats),
      (update_stats c.date c.correct_count c.total_words
        c.words_attempted s).total_quizzes = s.total_quizzes + 1 ∧
      (update_stats c.date c.correct_count c.total_words
        c.words_attempted s).quiz_results =
        s.quiz_results ++
          [mkQuizResult c.date c.correct_count c.total_words c.words_attempted] := by
  refine ⟨applyCalls_total_eq_length calls defaultStats (by simp [defaultStats]), ?_⟩
  intro c s
  exact ⟨rfl, rfl⟩

/-- C7: import trims both fields, silently skips rows with an empty field
after trimming, merges kept rows with overwrite-per-key semantics, and
returns `(importedCount, newCount)` where `importedCount` counts all kept
rows and `newCount` counts the distinct keys absent before the merge; the
`[("alpha","first"),("","skip-me"),("beta","second")]` scenario produces
`{"alpha": "first", "beta": "second"}` with counts `(2, 2)`; a header
missing `"Word"` or `"Definition"` aborts with no store produced. -/
theorem import_words_semantics (header : List String)
    (rows words final : List (String × String)) (ic nc : Nat) :
    import_words ["Word", "Definition"]
        [("alpha", "first"), ("", "skip-me"), ("beta", "second")] [] =
      some ([("alpha", "first"), ("beta", "second")], 2, 2) ∧
    (("Word" ∉ header ∨ "Definition" ∉ header) →
      import_words header rows words = none) ∧
    ((keys words).Nodup → import_words header rows words = some (final, ic, nc) →
      final = (rows.filterMap keptRow).foldl insRow words ∧
      ic = (rows.filterMap keptRow).length ∧
      nc = (((rows.filterMap keptRow).map Prod.fst).toFinset \
        (keys words).toFinset).card) := by
  refine ⟨by decide, ?_,
    fun hn himp => import_words_spec header rows words final ic nc hn himp⟩
  intro hh
  unfold import_words
  rw [if_neg (by tauto)]

theorem import_words_semantics_witness :
    import_words [] [] ([] : List (String × String)) = none :=
  (import_words_semantics [] [] [] [] 0 0).2.1 (Or.inl (by decide))

/-- C8 counterexample: the store `{"a ": "x"}` (whitespace-padded key)
does not round-trip: export emits the untrimmed row `("a ", "x")`, import
trims it, and the resulting store maps `"a"` — the original key `"a "` is
gone. -/
theorem export_import_counterexample :
    import_words (export_words_to_csv [("a ", "x")]).1
        (export_words_to_csv [("a ", "x")]).2 [] =
      some ([("a", "x")], 1, 1) ∧
    lookup [("a ", "x")] "a " = some "x" ∧
    lookup [("a", "x")] "a " = none := by decide

/-- C8 (amended): exporting and re-importing into an empty store
reproduces the word→definition mapping exactly, provided every word and
definition in the store is unchanged by trimming and non-empty (import
trims fields and skips empty ones, so whitespace-padded or blank entries
do not survive the round trip). -/
theorem export_import_roundtrip (words : List (String × String))
    (hnodup : (keys words).Nodup)
    (hclean : ∀ p ∈ words,
      stripStr p.1 = p.1 ∧ p.1 ≠ "" ∧ stripStr p.2 = p.2 ∧ p.2 ≠ "") :
    import_words (export_words_to_csv words).1 (export_words_to_csv words).2 [] =
      some (words, words.length, words.length) := by
  have hfm := filterMap_keptRow_id words hclean
  simp only [export_words_to_csv, import_words]
  rw [if_pos (by simp)]
  rw [import_foldl_eq, hfm,
    foldl_insRow_of_disjoint words [] (by simp [keys]) hnodup]
  simp

theorem export_import_roundtrip_witness :
    import_words (export_words_to_csv [("cat", "feline")]).1
        (export_words_to_csv [("cat", "feline")]).2 [] =
      some ([("cat", "feline")], 1, 1) := by
  have h := export_import_roundtrip [("cat", "feline")] (by decide) (by decide)
  simpa using h

/-- C9 counterexample: `add_word` does not reject an empty word — adding
`""` with definition `"x"` to the empty store changes its contents. -/
theorem add_word_empty_counterexample :
    (add_word ["", "x", "main"] []).1 = [("", "x")] ∧
    ([("", "x")] : List (String × String)) ≠ [] := by decide

/-- C9 (amended): `add_word` rejects no word, empty or not — only the
`main` sentinel (case-insensitive) exits without inserting.  Any other
word, including the empty one, is inserted or overwritten with its
definition, and the store is persisted when the action completes. -/
theorem add_word_inserts_and_persists (words : List (String × String))
    (w d : String) (h : ¬ lowerStr w = "main") :
    add_word [w, d, "main"] words = (storeInsert words w d, true) ∧
    lookup (storeInsert words w d) w = some d :=
  ⟨add_word_single words w d h, lookup_storeInsert_self words w d⟩

theorem add_word_inserts_and_persists_witness :
    add_word ["cat", "feline", "main"] [] = ([("cat", "feline")], true) ∧
    lookup [("cat", "feline")] "cat" = some "feline" := by
  have h := add_word_inserts_and_persists [] "cat" "feline" (by decide)
  have e : storeInsert [] "cat" "feline" = [("cat", "feline")] := by decide
  rw [e] at h
  exact h

end Memento
